import Mathlib

/-! Verification of the scan-cropper edge-detection core (`src/crop_scan.py`).

The Python source is shallowly embedded below.  Python 2 conventions that
matter for faithfulness:

* `/` on two `int`s is floor division (`rgb_brightness` divides the channel
  square sum by 3 before taking the square root); `/` with a float operand is
  real division (all the averaging code).  Float arithmetic is modelled as
  real arithmetic.
* `xrange(a, b, s)` enumerates `a, a+s, ...` strictly below `b` (empty when
  `b <= a`); with step `-1` it counts down to `b+1`.
* `PIL Image.getpixel` raises `IndexError` for any coordinate outside
  `[0, width) x [0, height)` (negative coordinates included); this failure is
  modelled with `Option`.  `rgb_neighbor_distance` catches that error for the
  neighbour lookups (and only for those), so its centre lookup failing models
  an abort of the source program.
* `collections.Counter` is modelled as an association list in key-insertion
  order; `most_common(1)` (via `heapq.nlargest`, which is stable thanks to
  its decreasing-index decoration) picks the first key of maximal count in
  iteration order.  CPython 2 dict iteration order is hash-slot order, NOT
  insertion order, so the insertion-ordered list here is a model choice:
  which key of maximal count wins a tie depends on the interpreter's hash
  table layout and is not captured by this embedding.  No claim-level result
  below depends on the iteration order: the counter-dependent results use it
  only through emptiness (`most_common1 [] = none`) and through properties
  that hold for every iteration order of the same multiset.
-/

namespace CropScan

noncomputable section

/-- An RGB pixel as decoded from the image: one natural number per channel. -/
structure Pixel where
  r : ℕ
  g : ℕ
  b : ℕ
  deriving DecidableEq

/-- A decoded image: a width, a height and the pixel data.  `pix` is total;
all code below reads it only at in-range coordinates (either behind the
bounds check of `getpixel` or at points proved in range). -/
structure Img where
  width : ℕ
  height : ℕ
  pix : ℕ × ℕ → Pixel

/-- `PIL Image.getpixel`: the pixel at `(x, y)`, or `none` for the
`IndexError` raised on any out-of-range coordinate. -/
def getpixel (img : Img) (p : ℤ × ℤ) : Option Pixel :=
  if 0 ≤ p.1 ∧ p.1 < (img.width : ℤ) ∧ 0 ≤ p.2 ∧ p.2 < (img.height : ℤ) then
    some (img.pix (p.1.toNat, p.2.toNat))
  else
    none

/-- Total pixel access, used to model `getpixel` calls the source makes at
coordinates that are always in range (where an out-of-range coordinate would
abort the whole source program rather than be handled). -/
def pixAt (img : Img) (p : ℤ × ℤ) : Pixel :=
  img.pix (p.1.toNat, p.2.toNat)

/-- `preferred_crops` (crop_scan.py lines 44-47). -/
def preferred_crops : List (ℤ × ℤ) := [(1770, 1180), (1180, 1770)]

/-- `point_distance` (lines 49-51): Euclidean distance between two lattice
points. -/
def point_distance (point0 point1 : ℤ × ℤ) : ℝ :=
  Real.sqrt (((point1.1 - point0.1) ^ 2 + (point1.2 - point0.2) ^ 2 : ℤ) : ℝ)

/-- `rgb_brightness` (lines 53-55).  The channel values are Python ints, so
`(r*r + g*g + b*b) / 3` is floor division; the square root is then taken of
that integer. -/
def rgb_brightness (pixel : Pixel) : ℝ :=
  Real.sqrt (((pixel.r * pixel.r + pixel.g * pixel.g + pixel.b * pixel.b) / 3 : ℕ) : ℝ)

/-- `rgb_distance` (lines 57-59): Euclidean distance in RGB space. -/
def rgb_distance (pixel0 pixel1 : Pixel) : ℝ :=
  Real.sqrt ((((pixel1.r : ℤ) - pixel0.r) ^ 2 + ((pixel1.g : ℤ) - pixel0.g) ^ 2
    + ((pixel1.b : ℤ) - pixel0.b) ^ 2 : ℤ) : ℝ)

/-- The `deltas` list of `rgb_neighbor_distance` (line 71):
`range(1, n+1, 1)` when looking after the point, `range(-1, -(n+1), -1)`
when looking before it. -/
def deltasList (n : ℕ) (do_after : Bool) : List ℤ :=
  if do_after then (List.range n).map (fun k => (k : ℤ) + 1)
  else (List.range n).map (fun k => -((k : ℤ) + 1))

/-- The neighbour coordinate probed for offset `delta` (lines 77 and 79). -/
def neighborPoint (point : ℤ × ℤ) (do_x : Bool) (delta : ℤ) : ℤ × ℤ :=
  if do_x then (point.1 + delta, point.2) else (point.1, point.2 + delta)

/-- The scanned point of a line walk (lines 94 and 129): the walked position
is the x coordinate when walking along x, else the y coordinate. -/
def pointOf (do_x : Bool) (line_index pos : ℤ) : ℤ × ℤ :=
  if do_x then (pos, line_index) else (line_index, pos)

/-- `rgb_neighbor_distance` (lines 61-84).  The centre lookup is outside the
`try`, so its failure (out-of-range `point`) aborts: modelled as `none`.
Each neighbour lookup failure is caught (`except IndexError: pass`) and the
neighbour is skipped, which `filterMap` models; if no neighbour is in range
the function returns `0`, otherwise the mean of the colour distances. -/
def rgb_neighbor_distance (img : Img) (point : ℤ × ℤ) (n : ℕ) (do_x do_after : Bool) :
    Option ℝ :=
  match getpixel img point with
  | none => none
  | some rgb =>
    let found := (deltasList n do_after).filterMap
      (fun delta => getpixel img (neighborPoint point do_x delta))
    some (if 0 < found.length then
            ((found.map (fun q => rgb_distance rgb q)).sum) / (found.length : ℝ)
          else 0)

/-- `rgb_brightness_of_one_line` (lines 86-98): mean brightness over the
positions `margin, ..., size - margin - 1` of one line.  All points read are
in range whenever `line_index` is a valid line of the perpendicular axis
(every caller guarantees that; an out-of-range `line_index` would abort the
source), so the total accessor `pixAt` is used. -/
def rgb_brightness_of_one_line (img : Img) (margin line_index : ℕ) (do_x : Bool) : ℝ :=
  let size := if do_x then img.width else img.height
  let positions : List ℕ := List.range' margin (size - margin - margin)
  let total := (positions.map (fun (pos : ℕ) =>
    rgb_brightness (pixAt img (pointOf do_x (line_index : ℤ) (pos : ℤ))))).sum
  if 0 < positions.length then total / (positions.length : ℝ) else 0

/-- The loop of `find_edge_using_brightness` (lines 106-118), walking
`line_index` from its first argument down to `0` with the current candidate
`edge` as state.  The Python loop returns the loop variable `line_index` -
not `edge` - either at the `break` (when `line_index < edge - 16`) or after
the final iteration at `line_index = 0`; at index `0` both exits yield `0`,
which the base case returns. -/
def febLoop (img : Img) (margin : ℕ) (do_x : Bool) : ℕ → Option ℕ → ℕ
  | 0, _ => 0
  | i + 1, none =>
    febLoop img margin do_x i
      (if rgb_brightness_of_one_line img margin (i + 1) (!do_x) < 240 then some (i + 1)
       else none)
  | i + 1, some e =>
    if i + 1 + 16 < e then i + 1
    else febLoop img margin do_x i (some e)

/-- `find_edge_using_brightness` (lines 100-118).  The scan starts at the far
boundary (`width - 1` or `height - 1`) with no candidate edge.  The source
crashes on an axis of size `0` (the loop variable is then unbound); callers
only pass images with positive dimensions. -/
def find_edge_using_brightness (img : Img) (margin : ℕ) (do_x : Bool) : ℕ :=
  febLoop img margin do_x ((if do_x then img.width else img.height) - 1) none

/-- `xrange(start, start - 1 - ... , -1)` walking down: the list
`start, start - 1, ..., stop` (empty when `stop > start`). -/
def downRange (start stop : ℤ) : List ℤ :=
  (List.range (start + 1 - stop).toNat).map (fun (k : ℕ) => start - (k : ℤ))

/-- The loop of `find_edge_of_one_line` (lines 127-140) over the remaining
positions, with the `passed_threshold` flag as state.  The result is
`some none` for falling off the loop (`return None`), `some (some pos)` for
`return position`, and `none` when a neighbour-distance centre lookup aborts
(never reached from in-range lines). -/
def feolLoop (img : Img) (line_index : ℤ) (neighbors : ℕ) (threshold : ℝ) (do_x : Bool) :
    List ℤ → Bool → Option (Option ℤ)
  | [], _ => some none
  | pos :: rest, passed =>
    let point : ℤ × ℤ := pointOf do_x line_index pos
    match rgb_neighbor_distance img point neighbors do_x false,
          rgb_neighbor_distance img point neighbors do_x true with
    | some pre, some post =>
      if passed then
        if threshold ≤ post - pre then some (some pos)
        else feolLoop img line_index neighbors threshold do_x rest passed
      else
        feolLoop img line_index neighbors threshold do_x rest
          (if threshold ≤ pre - post then true else false)
    | _, _ => none

/-- The positions walked by `find_edge_of_one_line` (line 128):
`xrange(size - 1, minimum - 1, -1)`, i.e. `size - 1` down to `minimum`. -/
def feolWalk (img : Img) (minimum : ℕ) (do_x : Bool) : List ℤ :=
  downRange (((if do_x then img.width else img.height) : ℤ) - 1) (minimum : ℤ)

/-- `find_edge_of_one_line` (lines 120-140): walk one line from the far end
of the scanned axis down to `minimum`. -/
def find_edge_of_one_line (img : Img) (minimum : ℕ) (line_index : ℤ) (neighbors : ℕ)
    (threshold : ℝ) (do_x : Bool) : Option (Option ℤ) :=
  feolLoop img line_index neighbors threshold do_x (feolWalk img minimum do_x) false

/-- `xrange(a, b, step)` for a positive step: `a, a + step, ...` strictly
below `b`. -/
def pyRange (a b step : ℕ) : List ℕ :=
  List.range' a ((b - a + step - 1) / step) step

/-- `Counter.__getitem__`-style increment `edge_frequency[e] += 1` (line 158)
on the insertion-ordered association-list model of the counter. -/
def bump : List (ℤ × ℕ) → ℤ → List (ℤ × ℕ)
  | [], e => [(e, 1)]
  | (k, c) :: rest, e =>
    if k = e then (k, c + 1) :: rest else (k, c) :: bump rest e

/-- The scan inside `most_common(1)`: keep the current best key, replacing it
only on a strictly larger count (`heapq.nlargest` is stable, so the first key
of maximal count in iteration order wins; which key that is on a tie depends
on the iteration order, here the modelled insertion order). -/
def mcGo : List (ℤ × ℕ) → ℤ → ℕ → ℤ
  | [], k, _ => k
  | (k2, c2) :: rest, k, c =>
    if c < c2 then mcGo rest k2 c2 else mcGo rest k c

/-- `edge_frequency.most_common(1)[0][0]` (line 163): `none` models the
`IndexError` of indexing the empty `most_common` list of an empty counter. -/
def most_common1 : List (ℤ × ℕ) → Option ℤ
  | [] => none
  | (k, c) :: rest => some (mcGo rest k c)

/-- The running-maximum update of `find_edge` (lines 159-160). -/
def maxStep (edge e : ℤ) : ℤ :=
  if edge < e then e else edge

/-- The loop of `find_edge` (lines 153-163) over the probed line indices,
with the running maximum `edge` and the counter as state.  A per-line abort
propagates; at the end the source evaluates
`(edge if edge >= 0 else -1, edge_frequency.most_common(1)[0][0])`, which
raises (modelled `none`) when the counter is empty. -/
def feGo (img : Img) (minimum neighbors : ℕ) (threshold : ℝ) (do_x : Bool) :
    List ℕ → ℤ → List (ℤ × ℕ) → Option (ℤ × ℤ)
  | [], edge, freq =>
    match most_common1 freq with
    | none => none
    | some m => some ((if 0 ≤ edge then edge else -1), m)
  | li :: rest, edge, freq =>
    match find_edge_of_one_line img minimum (li : ℤ) neighbors threshold do_x with
    | none => none
    | some none => feGo img minimum neighbors threshold do_x rest edge freq
    | some (some e) =>
      feGo img minimum neighbors threshold do_x rest (maxStep edge e) (bump freq e)

/-- `find_edge` (lines 142-163).  The probed lines run over
`xrange(margin, perpendicular - margin, neighbors / 2)` where the
perpendicular size is the height for the x axis and the width for the y
axis; `neighbors / 2` is integer division (the source raises on step `0`,
i.e. `neighbors < 2`). -/
def find_edge (img : Img) (minimum margin neighbors : ℕ) (threshold : ℝ) (do_x : Bool) :
    Option (ℤ × ℤ) :=
  feGo img minimum neighbors threshold do_x
    (pyRange margin ((if do_x then img.height else img.width) - margin) (neighbors / 2))
    (-1) []

/-- `CONFORM_POINT_DISTANCE_THRESHOLD` (line 182). -/
def CONFORM_POINT_DISTANCE_THRESHOLD : ℝ := 16

/-- `MINIMUM_DIMENSION` (line 178). -/
def MINIMUM_DIMENSION : ℕ := 480

/-- `EDGE_SEARCH_MARGIN` (line 179). -/
def EDGE_SEARCH_MARGIN : ℕ := 20

/-- `EDGE_RGB_DISTANCE_NEIGHBORS` (line 180). -/
def EDGE_RGB_DISTANCE_NEIGHBORS : ℕ := 8

/-- `EDGE_RGB_DISTANCE_THRESHOLD` (line 181). -/
def EDGE_RGB_DISTANCE_THRESHOLD : ℝ := 75

/-- The loop of `maybe_conform_crop` (lines 170-174). -/
def conformLoop : List (ℤ × ℤ) → ℤ × ℤ → ℤ × ℤ
  | [], crop_point => crop_point
  | crop :: rest, crop_point =>
    if point_distance crop crop_point < CONFORM_POINT_DISTANCE_THRESHOLD then crop
    else conformLoop rest crop_point

/-- `maybe_conform_crop` (lines 165-176): the first preferred crop within the
distance tolerance of the candidate, else the candidate unchanged. -/
def maybe_conform_crop (crop_point : ℤ × ℤ) : ℤ × ℤ :=
  conformLoop preferred_crops crop_point

/-- The crop rectangle computed and applied by `crop_scan_using_brightness`
(lines 196-205): one brightness edge per axis, conformed.  The surrounding
file I/O and the RGB-mode check are glue and not modelled. -/
def crop_scan_using_brightness_crop (img : Img) : ℤ × ℤ :=
  maybe_conform_crop ((find_edge_using_brightness img EDGE_SEARCH_MARGIN true : ℕ),
    (find_edge_using_brightness img EDGE_SEARCH_MARGIN false : ℕ))

/-! Specification-side vocabulary used to state the claims. -/

/-- A line qualifies as an edge candidate for `find_edge_using_brightness`
when its average brightness is below 240 (line 111).  The perpendicular axis
is scanned, hence the `!do_x`. -/
abbrev qualifiesBright (img : Img) (margin : ℕ) (do_x : Bool) (j : ℕ) : Prop :=
  rgb_brightness_of_one_line img margin j (!do_x) < 240

/-- A coordinate is inside the grid. -/
abbrev inRange (img : Img) (p : ℤ × ℤ) : Prop :=
  0 ≤ p.1 ∧ p.1 < (img.width : ℤ) ∧ 0 ≤ p.2 ∧ p.2 < (img.height : ℤ)

/-- The value of a neighbour-distance computation that is known to succeed. -/
def nbrDistD (img : Img) (point : ℤ × ℤ) (n : ℕ) (do_x do_after : Bool) : ℝ :=
  (rgb_neighbor_distance img point n do_x do_after).getD 0

/-- The neighbour offsets that land inside the grid. -/
def validDeltas (img : Img) (point : ℤ × ℤ) (n : ℕ) (do_x do_after : Bool) : List ℤ :=
  (deltasList n do_after).filter
    (fun delta => decide (inRange img (neighborPoint point do_x delta)))

/-- Phase-one trigger of the per-line walk: `pre - post >= threshold`. -/
abbrev feolStart (img : Img) (line_index : ℤ) (n : ℕ) (T : ℝ) (do_x : Bool) (pos : ℤ) : Prop :=
  T ≤ nbrDistD img (pointOf do_x line_index pos) n do_x false
    - nbrDistD img (pointOf do_x line_index pos) n do_x true

/-- Phase-two confirmation of the per-line walk: `post - pre >= threshold`. -/
abbrev feolConfirm (img : Img) (line_index : ℤ) (n : ℕ) (T : ℝ) (do_x : Bool) (pos : ℤ) : Prop :=
  T ≤ nbrDistD img (pointOf do_x line_index pos) n do_x true
    - nbrDistD img (pointOf do_x line_index pos) n do_x false

/-- The per-line walk with all pixel reads in range: the refinement of
`feolLoop` that cannot abort. -/
def feolSpec (img : Img) (line_index : ℤ) (n : ℕ) (T : ℝ) (do_x : Bool) :
    List ℤ → Bool → Option ℤ
  | [], _ => none
  | pos :: rest, passed =>
    if passed then
      if feolConfirm img line_index n T do_x pos then some pos
      else feolSpec img line_index n T do_x rest passed
    else
      feolSpec img line_index n T do_x rest
        (if feolStart img line_index n T do_x pos then true else false)

/-- Append a key to the iteration order if it is new. -/
def addKey (ks : List ℤ) (e : ℤ) : List ℤ :=
  if e ∈ ks then ks else ks ++ [e]

/-- The keys of a detection list in order of first occurrence. -/
def firstKeys (l : List ℤ) : List ℤ :=
  l.foldl addKey []

/-- Count lookup in the association-list counter (`0` for an absent key). -/
def keyCount : List (ℤ × ℕ) → ℤ → ℕ
  | [], _ => 0
  | (k, c) :: rest, e => if k = e then c else keyCount rest e

/-- `mcGo` as a pure scan returning the full best entry. -/
def pickFirstMax : List (ℤ × ℕ) → ℤ × ℕ → ℤ × ℕ
  | [], best => best
  | p :: rest, best =>
    if best.2 < p.2 then pickFirstMax rest p else pickFirstMax rest best

/-- The per-line detections collected by `find_edge`, in probe order. -/
def detections (img : Img) (minimum margin n : ℕ) (T : ℝ) (dx : Bool) : List ℤ :=
  (pyRange margin ((if dx then img.height else img.width) - margin) (n / 2)).filterMap
    (fun (li : ℕ) => (find_edge_of_one_line img minimum (li : ℤ) n T dx).join)

/-! Concrete pixel grids used as test inputs. -/

/-- Scanner-background white. -/
def whitePixel : Pixel := ⟨255, 255, 255⟩

/-- A maximally dark pixel. -/
def blackPixel : Pixel := ⟨0, 0, 0⟩

/-- A uniformly white 3x3 grid. -/
def wimg : Img := ⟨3, 3, fun _ => whitePixel⟩

/-- A 20x1 grid that is white on the two outermost columns (x = 18, 19) and
black on the rest: the first column, walking inward from x = 19, whose
average brightness is below 240 is x = 17. -/
def c1img : Img := ⟨20, 1, fun p => if 18 ≤ p.1 then whitePixel else blackPixel⟩

/-- The 2000x1500 end-to-end scenario grid: white wherever `x >= 1770` or
`y >= 1180`, black (maximally non-background) elsewhere. -/
def c2img : Img := ⟨2000, 1500, fun p => if 1770 ≤ p.1 ∨ 1180 ≤ p.2 then whitePixel else blackPixel⟩

end

/-! Brightness evaluation lemmas. -/

theorem rgb_brightness_white : rgb_brightness whitePixel = 255 := by
  have h : ((255 * 255 + 255 * 255 + 255 * 255) / 3 : ℕ) = 65025 := by norm_num
  rw [rgb_brightness, whitePixel]
  simp only [h]
  rw [show ((65025 : ℕ) : ℝ) = 255 ^ 2 by norm_num, Real.sqrt_sq (by norm_num)]

theorem rgb_brightness_black : rgb_brightness blackPixel = 0 := by
  have h : ((0 * 0 + 0 * 0 + 0 * 0) / 3 : ℕ) = 0 := by norm_num
  rw [rgb_brightness, blackPixel]
  simp only [h]
  simp

theorem sum_map_const_on {f : ℕ → ℝ} {c : ℝ} :
    ∀ (n s : ℕ), (∀ i, s ≤ i → i < s + n → f i = c) →
      ((List.range' s n).map f).sum = n * c := by
  intro n
  induction n with
  | zero => intro s _; simp
  | succ m ih =>
    intro s h
    rw [List.range'_succ, List.map_cons, List.sum_cons, ih (s + 1) (by
      intro i h1 h2
      exact h i (by omega) (by omega))]
    rw [h s (le_refl s) (by omega)]
    push_cast
    ring

/-- Mean brightness of a line all of whose scanned pixels have the same
brightness `c`, when the scanned range is nonempty. -/
theorem line_bright_const (img : Img) (margin li : ℕ) (dx : Bool) (c : ℝ)
    (h : ∀ pos, margin ≤ pos → pos < margin + ((if dx then img.width else img.height) - margin - margin) →
      rgb_brightness (pixAt img (pointOf dx (li : ℤ) (pos : ℤ))) = c)
    (hne : 0 < (if dx then img.width else img.height) - margin - margin) :
    rgb_brightness_of_one_line img margin li dx = c := by
  rw [rgb_brightness_of_one_line]
  simp only [List.length_range']
  rw [if_pos hne, sum_map_const_on _ _ h]
  rw [mul_comm]
  exact mul_div_cancel_right₀ c (by positivity)

/-! Characterisation of the `find_edge_using_brightness` loop. -/

theorem febLoop_succ_none_qual (img : Img) (margin : ℕ) (dx : Bool) (k : ℕ)
    (h : qualifiesBright img margin dx (k + 1)) :
    febLoop img margin dx (k + 1) none = febLoop img margin dx k (some (k + 1)) := by
  simp only [qualifiesBright] at h
  rw [febLoop, if_pos h]

theorem febLoop_succ_none_not (img : Img) (margin : ℕ) (dx : Bool) (k : ℕ)
    (h : ¬ qualifiesBright img margin dx (k + 1)) :
    febLoop img margin dx (k + 1) none = febLoop img margin dx k none := by
  simp only [qualifiesBright] at h
  rw [febLoop, if_neg h]

theorem febLoop_none_of_all_bright (img : Img) (margin : ℕ) (dx : Bool) :
    ∀ i, (∀ j, j ≤ i → ¬ qualifiesBright img margin dx j) →
      febLoop img margin dx i none = 0 := by
  intro i
  induction i with
  | zero => intro _; simp [febLoop]
  | succ k ih =>
    intro h
    rw [febLoop_succ_none_not img margin dx k (h (k + 1) (le_refl _))]
    exact ih (fun j hj => h j (by omega))

theorem febLoop_none_descend (img : Img) (margin : ℕ) (dx : Bool) (e : ℕ) :
    ∀ i, e ≤ i → (∀ j, e < j → j ≤ i → ¬ qualifiesBright img margin dx j) →
      febLoop img margin dx i none = febLoop img margin dx e none := by
  intro i
  induction i with
  | zero =>
    intro he _
    have : e = 0 := by omega
    rw [this]
  | succ k ih =>
    intro he h
    rcases Nat.eq_or_lt_of_le he with heq | hlt
    · rw [heq]
    · rw [febLoop_succ_none_not img margin dx k (h (k + 1) (by omega) (le_refl _))]
      exact ih (by omega) (fun j h1 h2 => h j h1 (by omega))

theorem febLoop_none_at_edge (img : Img) (margin : ℕ) (dx : Bool) (k : ℕ)
    (h : qualifiesBright img margin dx (k + 1)) :
    febLoop img margin dx (k + 1) none = febLoop img margin dx k (some (k + 1)) :=
  febLoop_succ_none_qual img margin dx k h

theorem febLoop_some_run (img : Img) (margin : ℕ) (dx : Bool) (e : ℕ) :
    ∀ i, i < e → e ≤ i + 17 →
      febLoop img margin dx i (some e) = if 17 ≤ e then e - 17 else 0 := by
  intro i
  induction i with
  | zero =>
    intro h1 h2
    have : febLoop img margin dx 0 (some e) = 0 := by simp [febLoop]
    rw [this]
    by_cases h17 : 17 ≤ e
    · rw [if_pos h17]; omega
    · rw [if_neg h17]
  | succ k ih =>
    intro h1 h2
    rw [febLoop]
    by_cases hbr : k + 1 + 16 < e
    · rw [if_pos hbr, if_pos (by omega)]
      omega
    · rw [if_neg hbr]
      exact ih (by omega) (by omega)

/-- The full characterisation: when line `e` is the outermost qualifying line
(every line strictly between `e` and the start is non-qualifying), the loop
returns `e - 17` when `e ≥ 17` and `0` otherwise — never `e` itself. -/
theorem febLoop_char (img : Img) (margin : ℕ) (dx : Bool) (start e : ℕ)
    (he : e ≤ start) (hq : qualifiesBright img margin dx e)
    (habove : ∀ j, e < j → j ≤ start → ¬ qualifiesBright img margin dx j) :
    febLoop img margin dx start none = if 17 ≤ e then e - 17 else 0 := by
  rw [febLoop_none_descend img margin dx e start he habove]
  cases e with
  | zero => simp [febLoop]
  | succ k =>
    rw [febLoop_none_at_edge img margin dx k hq]
    exact febLoop_some_run img margin dx (k + 1) k (by omega) (by omega)

theorem febLoop_le (img : Img) (margin : ℕ) (dx : Bool) :
    ∀ i st, febLoop img margin dx i st ≤ i := by
  intro i
  induction i with
  | zero => intro st; cases st <;> simp [febLoop]
  | succ k ih =>
    intro st
    cases st with
    | none =>
      rw [febLoop]
      exact le_trans (ih _) (by omega)
    | some e =>
      rw [febLoop]
      by_cases hbr : k + 1 + 16 < e
      · rw [if_pos hbr]
      · rw [if_neg hbr]
        exact le_trans (ih _) (by omega)

theorem febLoop_some_bound (img : Img) (margin : ℕ) (dx : Bool) (e : ℕ) :
    ∀ i, febLoop img margin dx i (some e) = 0 ∨
      febLoop img margin dx i (some e) + 17 ≤ e := by
  intro i
  induction i with
  | zero => left; simp [febLoop]
  | succ k ih =>
    rw [febLoop]
    by_cases hbr : k + 1 + 16 < e
    · rw [if_pos hbr]; right; omega
    · rw [if_neg hbr]; exact ih

theorem febLoop_none_bound (img : Img) (margin : ℕ) (dx : Bool) :
    ∀ i, febLoop img margin dx i none = 0 ∨
      ∃ e, e ≤ i ∧ febLoop img margin dx i none + 17 ≤ e := by
  intro i
  induction i with
  | zero => left; simp [febLoop]
  | succ k ih =>
    by_cases hq : qualifiesBright img margin dx (k + 1)
    · rw [febLoop_succ_none_qual img margin dx k hq]
      rcases febLoop_some_bound img margin dx (k + 1) k with h | h
      · left; exact h
      · right; exact ⟨k + 1, le_refl _, h⟩
    · rw [febLoop_succ_none_not img margin dx k hq]
      rcases ih with h | ⟨e, he, h⟩
      · left; exact h
      · right; exact ⟨e, by omega, h⟩

/-- The returned brightness edge is `0` or at least 18 lines away from the
far boundary. -/
theorem feub_bound (img : Img) (margin : ℕ) (dx : Bool) :
    find_edge_using_brightness img margin dx = 0 ∨
      find_edge_using_brightness img margin dx + 18 ≤ (if dx then img.width else img.height) := by
  rw [find_edge_using_brightness]
  rcases febLoop_none_bound img margin dx ((if dx then img.width else img.height) - 1) with h | ⟨e, he, h⟩
  · left; exact h
  · right
    have := febLoop_le img margin dx ((if dx then img.width else img.height) - 1) none
    omega

/-! Brightness of the concrete grids. -/

theorem wimg_line_bright (li : ℕ) (dx : Bool) :
    rgb_brightness_of_one_line wimg 0 li dx = 255 := by
  apply line_bright_const
  · intro pos _ _
    exact rgb_brightness_white
  · cases dx <;> norm_num [wimg]

theorem c1img_line_bright (j : ℕ) :
    rgb_brightness_of_one_line c1img 0 j false = if 18 ≤ j then 255 else 0 := by
  apply line_bright_const
  · intro pos _ _
    by_cases hj : 18 ≤ j
    · rw [if_pos hj]
      have hp : pixAt c1img (pointOf false (j : ℤ) (pos : ℤ)) = whitePixel := by
        simp [pixAt, pointOf, c1img, hj]
      rw [hp, rgb_brightness_white]
    · rw [if_neg hj]
      have hp : pixAt c1img (pointOf false (j : ℤ) (pos : ℤ)) = blackPixel := by
        simp [pixAt, pointOf, c1img, hj]
      rw [hp, rgb_brightness_black]
  · norm_num [c1img]

/-- C1: the spec says the first line, walking inward from the far boundary,
whose average brightness falls below 240 is the returned edge, and that the
diagnostic scan of up to 16 further lines does not change the returned
value.  The code instead returns the loop variable `line_index` (line 118),
which at the `break` sits 17 lines past the recorded edge: on a 20-wide grid
whose first qualifying column (walking inward from x = 19) is x = 17, the
function returns 0, not 17. -/
theorem c1_feub_returns_loop_var_not_edge :
    qualifiesBright c1img 0 true 17 ∧
    (∀ j, 18 ≤ j → j ≤ 19 → ¬ qualifiesBright c1img 0 true j) ∧
    find_edge_using_brightness c1img 0 true = 0 := by
  have hq17 : qualifiesBright c1img 0 true 17 := by
    show rgb_brightness_of_one_line c1img 0 17 false < 240
    rw [c1img_line_bright]
    norm_num
  have hnq : ∀ j, 18 ≤ j → j ≤ 19 → ¬ qualifiesBright c1img 0 true j := by
    intro j h1 _
    show ¬ rgb_brightness_of_one_line c1img 0 j false < 240
    rw [c1img_line_bright, if_pos h1]
    norm_num
  refine ⟨hq17, hnq, ?_⟩
  have hfe : find_edge_using_brightness c1img 0 true = febLoop c1img 0 true 19 none := rfl
  rw [hfe, febLoop_char c1img 0 true 19 17 (by omega) hq17
    (fun j h1 h2 => hnq j (by omega) h2)]
  norm_num

/-- C9: on a grid none of whose scanned lines has average brightness below
240, `find_edge_using_brightness` falls through its loop and returns 0, the
innermost scanned index, on both axes. -/
theorem c9_all_bright_returns_zero (img : Img) (margin : ℕ)
    (hW : 1 ≤ img.width) (hH : 1 ≤ img.height)
    (hx : ∀ j, j < img.width → ¬ qualifiesBright img margin true j)
    (hy : ∀ j, j < img.height → ¬ qualifiesBright img margin false j) :
    find_edge_using_brightness img margin true = 0 ∧
    find_edge_using_brightness img margin false = 0 := by
  constructor
  · show febLoop img margin true (img.width - 1) none = 0
    exact febLoop_none_of_all_bright img margin true _ (fun j hj => hx j (by omega))
  · show febLoop img margin false (img.height - 1) none = 0
    exact febLoop_none_of_all_bright img margin false _ (fun j hj => hy j (by omega))

/-- Witness for C9 at the uniformly white 3x3 grid. -/
theorem c9_all_bright_returns_zero_witness :
    find_edge_using_brightness wimg 0 true = 0 ∧
    find_edge_using_brightness wimg 0 false = 0 :=
  c9_all_bright_returns_zero wimg 0 (by norm_num [wimg]) (by norm_num [wimg])
    (fun j _ => by
      show ¬ rgb_brightness_of_one_line wimg 0 j false < 240
      rw [wimg_line_bright]
      norm_num)
    (fun j _ => by
      show ¬ rgb_brightness_of_one_line wimg 0 j true < 240
      rw [wimg_line_bright]
      norm_num)

/-- C10: on an axis of size at least 1, `find_edge_using_brightness` always
returns a valid line index of that axis, in `[0, size - 1]`. -/
theorem c10_feub_in_index_range (img : Img) (margin : ℕ) (dx : Bool)
    (h : 1 ≤ (if dx then img.width else img.height)) :
    0 ≤ ((find_edge_using_brightness img margin dx : ℕ) : ℤ) ∧
    ((find_edge_using_brightness img margin dx : ℕ) : ℤ)
      ≤ (((if dx then img.width else img.height) : ℕ) : ℤ) - 1 := by
  have hle : find_edge_using_brightness img margin dx
      ≤ (if dx then img.width else img.height) - 1 :=
    febLoop_le img margin dx ((if dx then img.width else img.height) - 1) none
  constructor
  · exact Int.natCast_nonneg _
  · omega

/-- Witness for C10 at the white 3x3 grid, x axis. -/
theorem c10_feub_in_index_range_witness :
    0 ≤ ((find_edge_using_brightness wimg 0 true : ℕ) : ℤ) ∧
    ((find_edge_using_brightness wimg 0 true : ℕ) : ℤ)
      ≤ (((if true then wimg.width else wimg.height) : ℕ) : ℤ) - 1 :=
  c10_feub_in_index_range wimg 0 true (by norm_num [wimg])

/-! Crop conformance. -/

theorem point_distance_pair_lt_16 (c1 c2 p1 p2 : ℤ) :
    point_distance (c1, c2) (p1, p2) < CONFORM_POINT_DISTANCE_THRESHOLD ↔
      (p1 - c1) ^ 2 + (p2 - c2) ^ 2 < 256 := by
  rw [CONFORM_POINT_DISTANCE_THRESHOLD, point_distance, Real.sqrt_lt' (by norm_num)]
  constructor
  · intro h
    have h2 : (((p1 - c1) ^ 2 + (p2 - c2) ^ 2 : ℤ) : ℝ) < ((256 : ℤ) : ℝ) := by
      calc (((p1 - c1) ^ 2 + (p2 - c2) ^ 2 : ℤ) : ℝ) < (16 : ℝ) ^ 2 := h
        _ = ((256 : ℤ) : ℝ) := by norm_num
    exact_mod_cast h2
  · intro h
    have h2 : (((p1 - c1) ^ 2 + (p2 - c2) ^ 2 : ℤ) : ℝ) < ((256 : ℤ) : ℝ) := by
      exact_mod_cast h
    calc (((p1 - c1) ^ 2 + (p2 - c2) ^ 2 : ℤ) : ℝ) < ((256 : ℤ) : ℝ) := h2
      _ = (16 : ℝ) ^ 2 := by norm_num

theorem maybe_conform_crop_eq (cp : ℤ × ℤ) :
    maybe_conform_crop cp =
      if point_distance (1770, 1180) cp < CONFORM_POINT_DISTANCE_THRESHOLD then (1770, 1180)
      else if point_distance (1180, 1770) cp < CONFORM_POINT_DISTANCE_THRESHOLD then (1180, 1770)
      else cp := by
  rw [maybe_conform_crop, preferred_crops]
  rw [conformLoop]
  by_cases h1 : point_distance (1770, 1180) cp < CONFORM_POINT_DISTANCE_THRESHOLD
  · rw [if_pos h1, if_pos h1]
  · rw [if_neg h1, if_neg h1, conformLoop]
    by_cases h2 : point_distance (1180, 1770) cp < CONFORM_POINT_DISTANCE_THRESHOLD
    · rw [if_pos h2, if_pos h2]
    · rw [if_neg h2, if_neg h2, conformLoop]

/-- C7: `maybe_conform_crop` returns the first preferred size in list order
whose Euclidean distance to the candidate is strictly below the tolerance,
and the candidate unchanged when no preferred size is within tolerance; in
particular a candidate within tolerance of (1770, 1180) conforms to exactly
(1770, 1180). -/
theorem c7_conform_first_match (cp : ℤ × ℤ) :
    (point_distance (1770, 1180) cp < CONFORM_POINT_DISTANCE_THRESHOLD →
      maybe_conform_crop cp = (1770, 1180)) ∧
    (¬ point_distance (1770, 1180) cp < CONFORM_POINT_DISTANCE_THRESHOLD →
      point_distance (1180, 1770) cp < CONFORM_POINT_DISTANCE_THRESHOLD →
      maybe_conform_crop cp = (1180, 1770)) ∧
    ((∀ c ∈ preferred_crops, ¬ point_distance c cp < CONFORM_POINT_DISTANCE_THRESHOLD) →
      maybe_conform_crop cp = cp) := by
  refine ⟨?_, ?_, ?_⟩
  · intro h1
    rw [maybe_conform_crop_eq, if_pos h1]
  · intro h1 h2
    rw [maybe_conform_crop_eq, if_neg h1, if_pos h2]
  · intro h
    have h1 := h (1770, 1180) (by simp [preferred_crops])
    have h2 := h (1180, 1770) (by simp [preferred_crops])
    rw [maybe_conform_crop_eq, if_neg h1, if_neg h2]

/-- Witness for C7: (1769, 1179) is within tolerance of (1770, 1180) and
conforms to it. -/
theorem c7_conform_first_match_witness :
    point_distance (1770, 1180) ((1769 : ℤ), (1179 : ℤ)) < CONFORM_POINT_DISTANCE_THRESHOLD ∧
    maybe_conform_crop ((1769 : ℤ), (1179 : ℤ)) = (1770, 1180) := by
  have h : point_distance (1770, 1180) ((1769 : ℤ), (1179 : ℤ))
      < CONFORM_POINT_DISTANCE_THRESHOLD := by
    rw [point_distance_pair_lt_16]
    norm_num
  exact ⟨h, (c7_conform_first_match ((1769 : ℤ), (1179 : ℤ))).1 h⟩

/-- C6: the conformed crop rectangle applied by the brightness orchestration
always fits inside the image: `0 ≤ width ≤ W` and `0 ≤ height ≤ H`.  (This
depends on the returned edges being either 0 or at least 18 lines inside the
far boundary, so that a conformed 1770 or 1180 only arises on images at
least that large.) -/
theorem c6_crop_within_grid (img : Img) (hW : 1 ≤ img.width) (hH : 1 ≤ img.height) :
    0 ≤ (crop_scan_using_brightness_crop img).1 ∧
    (crop_scan_using_brightness_crop img).1 ≤ (img.width : ℤ) ∧
    0 ≤ (crop_scan_using_brightness_crop img).2 ∧
    (crop_scan_using_brightness_crop img).2 ≤ (img.height : ℤ) := by
  have hbx : find_edge_using_brightness img EDGE_SEARCH_MARGIN true = 0 ∨
      find_edge_using_brightness img EDGE_SEARCH_MARGIN true + 18 ≤ img.width :=
    feub_bound img EDGE_SEARCH_MARGIN true
  have hby : find_edge_using_brightness img EDGE_SEARCH_MARGIN false = 0 ∨
      find_edge_using_brightness img EDGE_SEARCH_MARGIN false + 18 ≤ img.height :=
    feub_bound img EDGE_SEARCH_MARGIN false
  set ex := find_edge_using_brightness img EDGE_SEARCH_MARGIN true with hexdef
  set ey := find_edge_using_brightness img EDGE_SEARCH_MARGIN false with heydef
  rw [crop_scan_using_brightness_crop, maybe_conform_crop_eq]
  by_cases h1 : point_distance (1770, 1180) ((ex : ℤ), (ey : ℤ))
      < CONFORM_POINT_DISTANCE_THRESHOLD
  · rw [if_pos h1]
    rw [point_distance_pair_lt_16] at h1
    have ha : (-16 : ℤ) < (ex : ℤ) - 1770 := by
      nlinarith [sq_nonneg ((ex : ℤ) - 1770 + 16), sq_nonneg ((ey : ℤ) - 1180)]
    have hb : (-16 : ℤ) < (ey : ℤ) - 1180 := by
      nlinarith [sq_nonneg ((ey : ℤ) - 1180 + 16), sq_nonneg ((ex : ℤ) - 1770)]
    have hx2 : ex + 18 ≤ img.width := by
      rcases hbx with h | h
      · omega
      · exact h
    have hy2 : ey + 18 ≤ img.height := by
      rcases hby with h | h
      · omega
      · exact h
    refine ⟨by norm_num, ?_, by norm_num, ?_⟩
    · show (1770 : ℤ) ≤ (img.width : ℤ)
      omega
    · show (1180 : ℤ) ≤ (img.height : ℤ)
      omega
  · rw [if_neg h1]
    by_cases h2 : point_distance (1180, 1770) ((ex : ℤ), (ey : ℤ))
        < CONFORM_POINT_DISTANCE_THRESHOLD
    · rw [if_pos h2]
      rw [point_distance_pair_lt_16] at h2
      have ha : (-16 : ℤ) < (ex : ℤ) - 1180 := by
        nlinarith [sq_nonneg ((ex : ℤ) - 1180 + 16), sq_nonneg ((ey : ℤ) - 1770)]
      have hb : (-16 : ℤ) < (ey : ℤ) - 1770 := by
        nlinarith [sq_nonneg ((ey : ℤ) - 1770 + 16), sq_nonneg ((ex : ℤ) - 1180)]
      have hx2 : ex + 18 ≤ img.width := by
        rcases hbx with h | h
        · omega
        · exact h
      have hy2 : ey + 18 ≤ img.height := by
        rcases hby with h | h
        · omega
        · exact h
      refine ⟨by norm_num, ?_, by norm_num, ?_⟩
      · show (1180 : ℤ) ≤ (img.width : ℤ)
        omega
      · show (1770 : ℤ) ≤ (img.height : ℤ)
        omega
    · rw [if_neg h2]
      refine ⟨by positivity, ?_, by positivity, ?_⟩
      · show ((ex : ℕ) : ℤ) ≤ (img.width : ℤ)
        omega
      · show ((ey : ℕ) : ℤ) ≤ (img.height : ℤ)
        omega

/-- Witness for C6 at the white 3x3 grid. -/
theorem c6_crop_within_grid_witness :
    0 ≤ (crop_scan_using_brightness_crop wimg).1 ∧
    (crop_scan_using_brightness_crop wimg).1 ≤ (wimg.width : ℤ) ∧
    0 ≤ (crop_scan_using_brightness_crop wimg).2 ∧
    (crop_scan_using_brightness_crop wimg).2 ≤ (wimg.height : ℤ) :=
  c6_crop_within_grid wimg (by norm_num [wimg]) (by norm_num [wimg])

/-! The C2 end-to-end scenario grid. -/

theorem sum_map_split {f : ℕ → ℝ} (s m n : ℕ) :
    ((List.range' s (m + n)).map f).sum =
      ((List.range' s m).map f).sum + ((List.range' (s + m) n).map f).sum := by
  rw [show m + n = n + m from Nat.add_comm m n, ← List.range'_append_1 s m n,
    List.map_append, List.sum_append]

/-- Mean brightness of a line whose scanned positions split into a first
block of brightness `c1` and a second block of brightness `c2`. -/
theorem line_bright_two_blocks (img : Img) (margin li : ℕ) (dx : Bool)
    (m n : ℕ) (c1 c2 : ℝ)
    (hlen : (if dx then img.width else img.height) - margin - margin = m + n)
    (h1 : ∀ pos, margin ≤ pos → pos < margin + m →
      rgb_brightness (pixAt img (pointOf dx (li : ℤ) (pos : ℤ))) = c1)
    (h2 : ∀ pos, margin + m ≤ pos → pos < margin + m + n →
      rgb_brightness (pixAt img (pointOf dx (li : ℤ) (pos : ℤ))) = c2)
    (hmn : 0 < m + n) :
    rgb_brightness_of_one_line img margin li dx = (m * c1 + n * c2) / (m + n) := by
  rw [rgb_brightness_of_one_line]
  simp only [List.length_range', hlen]
  rw [if_pos hmn, sum_map_split, sum_map_const_on m margin h1,
    sum_map_const_on n (margin + m) (fun i hi1 hi2 => h2 i hi1 (by omega))]
  push_cast
  ring_nf

theorem c2img_pix_white (x y : ℕ) (h : 1770 ≤ x ∨ 1180 ≤ y) :
    c2img.pix (x, y) = whitePixel := by
  simp only [c2img]
  rw [if_pos h]

theorem c2img_pix_black (x y : ℕ) (hx : x < 1770) (hy : y < 1180) :
    c2img.pix (x, y) = blackPixel := by
  simp only [c2img]
  rw [if_neg (by omega)]

theorem c2_col_bright_white (x : ℕ) (hx : 1770 ≤ x) :
    rgb_brightness_of_one_line c2img 20 x false = 255 := by
  apply line_bright_const
  · intro pos _ _
    have hp : pixAt c2img (pointOf false (x : ℤ) (pos : ℤ)) = whitePixel := by
      show c2img.pix (((x : ℤ)).toNat, ((pos : ℤ)).toNat) = whitePixel
      simp only [Int.toNat_natCast]
      exact c2img_pix_white x pos (Or.inl hx)
    rw [hp, rgb_brightness_white]
  · norm_num [c2img]

theorem c2_col_bright_dark (x : ℕ) (hx : x < 1770) :
    rgb_brightness_of_one_line c2img 20 x false = 76500 / 1460 := by
  have h := line_bright_two_blocks c2img 20 x false 1160 300 0 255
    (by norm_num [c2img])
    (fun pos h1 h2 => by
      have hp : pixAt c2img (pointOf false (x : ℤ) (pos : ℤ)) = blackPixel := by
        show c2img.pix (((x : ℤ)).toNat, ((pos : ℤ)).toNat) = blackPixel
        simp only [Int.toNat_natCast]
        exact c2img_pix_black x pos hx (by omega)
      rw [hp, rgb_brightness_black])
    (fun pos h1 h2 => by
      have hp : pixAt c2img (pointOf false (x : ℤ) (pos : ℤ)) = whitePixel := by
        show c2img.pix (((x : ℤ)).toNat, ((pos : ℤ)).toNat) = whitePixel
        simp only [Int.toNat_natCast]
        exact c2img_pix_white x pos (Or.inr (by omega))
      rw [hp, rgb_brightness_white])
    (by norm_num)
  rw [h]
  norm_num

theorem c2_row_bright_white (y : ℕ) (hy : 1180 ≤ y) :
    rgb_brightness_of_one_line c2img 20 y true = 255 := by
  apply line_bright_const
  · intro pos _ _
    have hp : pixAt c2img (pointOf true (y : ℤ) (pos : ℤ)) = whitePixel := by
      show c2img.pix (((pos : ℤ)).toNat, ((y : ℤ)).toNat) = whitePixel
      simp only [Int.toNat_natCast]
      exact c2img_pix_white pos y (Or.inr hy)
    rw [hp, rgb_brightness_white]
  · norm_num [c2img]

theorem c2_row_bright_dark (y : ℕ) (hy : y < 1180) :
    rgb_brightness_of_one_line c2img 20 y true = 53550 / 1960 := by
  have h := line_bright_two_blocks c2img 20 y true 1750 210 0 255
    (by norm_num [c2img])
    (fun pos h1 h2 => by
      have hp : pixAt c2img (pointOf true (y : ℤ) (pos : ℤ)) = blackPixel := by
        show c2img.pix (((pos : ℤ)).toNat, ((y : ℤ)).toNat) = blackPixel
        simp only [Int.toNat_natCast]
        exact c2img_pix_black pos y (by omega) hy
      rw [hp, rgb_brightness_black])
    (fun pos h1 h2 => by
      have hp : pixAt c2img (pointOf true (y : ℤ) (pos : ℤ)) = whitePixel := by
        show c2img.pix (((pos : ℤ)).toNat, ((y : ℤ)).toNat) = whitePixel
        simp only [Int.toNat_natCast]
        exact c2img_pix_white pos y (Or.inl (by omega))
      rw [hp, rgb_brightness_white])
    (by norm_num)
  rw [h]
  norm_num

/-- Every column left of 1770 qualifies (average brightness below 240) and no
column at or right of 1770 does: the first qualifying column walking inward
from x = 1999 is x = 1769. -/
theorem c2_qual_col (x : ℕ) :
    qualifiesBright c2img 20 true x ↔ x < 1770 := by
  constructor
  · intro h
    by_contra hge
    have h255 := c2_col_bright_white x (by omega)
    have : rgb_brightness_of_one_line c2img 20 x false < 240 := h
    rw [h255] at this
    norm_num at this
  · intro hlt
    show rgb_brightness_of_one_line c2img 20 x false < 240
    rw [c2_col_bright_dark x hlt]
    norm_num

theorem c2_qual_row (y : ℕ) :
    qualifiesBright c2img 20 false y ↔ y < 1180 := by
  constructor
  · intro h
    by_contra hge
    have h255 := c2_row_bright_white y (by omega)
    have : rgb_brightness_of_one_line c2img 20 y true < 240 := h
    rw [h255] at this
    norm_num at this
  · intro hlt
    show rgb_brightness_of_one_line c2img 20 y true < 240
    rw [c2_row_bright_dark y hlt]
    norm_num

theorem c2_feub_x : find_edge_using_brightness c2img 20 true = 1752 := by
  have hfe : find_edge_using_brightness c2img 20 true = febLoop c2img 20 true 1999 none := rfl
  rw [hfe, febLoop_char c2img 20 true 1999 1769 (by omega)
    ((c2_qual_col 1769).mpr (by omega))
    (fun j h1 h2 => by
      rw [c2_qual_col]
      omega)]
  norm_num

theorem c2_feub_y : find_edge_using_brightness c2img 20 false = 1162 := by
  have hfe : find_edge_using_brightness c2img 20 false = febLoop c2img 20 false 1499 none := rfl
  rw [hfe, febLoop_char c2img 20 false 1499 1179 (by omega)
    ((c2_qual_row 1179).mpr (by omega))
    (fun j h1 h2 => by
      rw [c2_qual_row]
      omega)]
  norm_num

/-- C2: on the 2000x1500 scenario grid — white wherever `x ≥ 1770` or
`y ≥ 1180`, every column left of 1770 and every row above 1180 with average
brightness below 240 (`c2_qual_col`, `c2_qual_row`) — the spec demands the
crop (1770, 1180).  The code instead detects the first qualifying lines at
1769/1179, returns the loop variables 1752/1162 (17 lines further in), and
the conformance step, being more than 16 away from (1770, 1180), leaves
(1752, 1162) unchanged. -/
theorem c2_end_to_end_crop : crop_scan_using_brightness_crop c2img = (1752, 1162) := by
  have hx : find_edge_using_brightness c2img EDGE_SEARCH_MARGIN true = 1752 := c2_feub_x
  have hy : find_edge_using_brightness c2img EDGE_SEARCH_MARGIN false = 1162 := c2_feub_y
  rw [crop_scan_using_brightness_crop, hx, hy, maybe_conform_crop_eq]
  rw [if_neg (by
    rw [point_distance_pair_lt_16]
    norm_num)]
  rw [if_neg (by
    rw [point_distance_pair_lt_16]
    norm_num)]
  norm_num

/-! Neighbour colour distance. -/

theorem getpixel_eq_some (img : Img) (p : ℤ × ℤ) (h : inRange img p) :
    getpixel img p = some (pixAt img p) := by
  rw [getpixel, if_pos h]
  rfl

theorem getpixel_eq_none (img : Img) (p : ℤ × ℤ) (h : ¬ inRange img p) :
    getpixel img p = none := by
  rw [getpixel, if_neg h]

theorem found_eq_valid (img : Img) (point : ℤ × ℤ) (n : ℕ) (dx da : Bool) :
    (deltasList n da).filterMap (fun delta => getpixel img (neighborPoint point dx delta)) =
      (validDeltas img point n dx da).map
        (fun delta => pixAt img (neighborPoint point dx delta)) := by
  rw [validDeltas]
  induction deltasList n da with
  | nil => rfl
  | cons d rest ih =>
    rw [List.filterMap_cons, List.filter_cons]
    by_cases h : inRange img (neighborPoint point dx d)
    · rw [getpixel_eq_some _ _ h, if_pos (decide_eq_true h), List.map_cons, ih]
    · rw [getpixel_eq_none _ _ h, if_neg (by simpa using h)]
      exact ih

/-- The full characterisation of `rgb_neighbor_distance` at an in-range
point: it always succeeds, averaging only the in-grid neighbours, and is `0`
when no neighbour is in the grid. -/
theorem nbr_char (img : Img) (point : ℤ × ℤ) (n : ℕ) (dx da : Bool)
    (h : inRange img point) :
    rgb_neighbor_distance img point n dx da =
      some (if validDeltas img point n dx da = [] then 0
        else ((validDeltas img point n dx da).map
            (fun delta => rgb_distance (pixAt img point)
              (pixAt img (neighborPoint point dx delta)))).sum
          / ((validDeltas img point n dx da).length : ℝ)) := by
  rw [rgb_neighbor_distance, getpixel_eq_some img point h]
  show some _ = some _
  congr 1
  rw [found_eq_valid, List.length_map, List.map_map]
  by_cases hv : validDeltas img point n dx da = []
  · rw [hv]
    simp
  · rw [if_pos (List.length_pos.mpr hv), if_neg hv]
    rfl

theorem nbrDist_eq_some (img : Img) (point : ℤ × ℤ) (n : ℕ) (dx da : Bool)
    (h : inRange img point) :
    rgb_neighbor_distance img point n dx da = some (nbrDistD img point n dx da) := by
  rw [nbrDistD, nbr_char img point n dx da h]
  rfl

theorem nbrDistD_eq (img : Img) (point : ℤ × ℤ) (n : ℕ) (dx da : Bool)
    (h : inRange img point) :
    nbrDistD img point n dx da =
      (if validDeltas img point n dx da = [] then 0
        else ((validDeltas img point n dx da).map
            (fun delta => rgb_distance (pixAt img point)
              (pixAt img (neighborPoint point dx delta)))).sum
          / ((validDeltas img point n dx da).length : ℝ)) := by
  rw [nbrDistD, nbr_char img point n dx da h]
  rfl

/-- C8: at any in-range point the neighbour colour distance never fails: it
averages the colour distances to exactly the in-grid members of the up-to-`n`
consecutive neighbours (out-of-grid neighbours silently excluded), and it is
exactly 0 when no neighbour in the requested direction lies in the grid. -/
theorem c8_neighbor_distance_never_fails (img : Img) (point : ℤ × ℤ) (n : ℕ) (dx da : Bool)
    (h : inRange img point) :
    rgb_neighbor_distance img point n dx da =
      some (if validDeltas img point n dx da = [] then 0
        else ((validDeltas img point n dx da).map
            (fun delta => rgb_distance (pixAt img point)
              (pixAt img (neighborPoint point dx delta)))).sum
          / ((validDeltas img point n dx da).length : ℝ)) :=
  nbr_char img point n dx da h

/-- Witness for C8 at the top-left corner of the white 3x3 grid, looking
before it along x: no neighbour exists and the result is exactly `some 0`. -/
theorem c8_neighbor_distance_never_fails_witness :
    rgb_neighbor_distance wimg ((0 : ℤ), (0 : ℤ)) 2 true false = some 0 := by
  have h := c8_neighbor_distance_never_fails wimg ((0 : ℤ), (0 : ℤ)) 2 true false
    ⟨by norm_num, by norm_num [wimg], by norm_num, by norm_num [wimg]⟩
  rw [h]
  have hv : validDeltas wimg ((0 : ℤ), (0 : ℤ)) 2 true false = [] := rfl
  rw [hv]
  simp

/-! The per-line colour-distance walk. -/

theorem mem_downRange {start stop p : ℤ} :
    p ∈ downRange start stop ↔ stop ≤ p ∧ p ≤ start := by
  rw [downRange]
  simp only [List.mem_map, List.mem_range]
  constructor
  · rintro ⟨k, hk, rfl⟩
    rw [Int.lt_toNat] at hk
    omega
  · rintro ⟨h1, h2⟩
    refine ⟨(start - p).toNat, ?_, ?_⟩
    · rw [Int.lt_toNat, Int.toNat_of_nonneg (by omega)]
      omega
    · rw [Int.toNat_of_nonneg (by omega)]
      omega

theorem downRange_sorted (start stop : ℤ) : (downRange start stop).Pairwise (· > ·) := by
  rw [downRange, List.pairwise_map]
  exact (List.pairwise_lt_range _).imp (fun h => by omega)

/-- One step of `feolLoop` at an in-range point, expressed with the
phase predicates. -/
theorem feolLoop_cons (img : Img) (li : ℤ) (n : ℕ) (T : ℝ) (dx : Bool)
    (p : ℤ) (rest : List ℤ) (b : Bool) (h : inRange img (pointOf dx li p)) :
    feolLoop img li n T dx (p :: rest) b =
      if b then
        (if feolConfirm img li n T dx p then some (some p)
         else feolLoop img li n T dx rest b)
      else feolLoop img li n T dx rest
        (if feolStart img li n T dx p then true else false) := by
  rw [feolLoop, nbrDist_eq_some img _ n dx false h, nbrDist_eq_some img _ n dx true h]

/-- `feolLoop` never aborts when every walked point is in range, and then
computes `feolSpec`. -/
theorem feolLoop_eq_spec (img : Img) (li : ℤ) (n : ℕ) (T : ℝ) (dx : Bool) :
    ∀ (l : List ℤ) (b : Bool), (∀ p ∈ l, inRange img (pointOf dx li p)) →
      feolLoop img li n T dx l b = some (feolSpec img li n T dx l b) := by
  intro l
  induction l with
  | nil => intro b _; rfl
  | cons p rest ih =>
    intro b hin
    have hrest : ∀ q ∈ rest, inRange img (pointOf dx li q) :=
      fun q hq => hin q (List.mem_cons_of_mem _ hq)
    rw [feolLoop_cons img li n T dx p rest b (hin p (List.mem_cons_self _ _)), feolSpec]
    cases b with
    | true =>
      rw [if_pos rfl, if_pos rfl]
      by_cases hc : feolConfirm img li n T dx p
      · rw [if_pos hc, if_pos hc]
      · rw [if_neg hc, if_neg hc]
        exact ih true hrest
    | false =>
      rw [if_neg Bool.false_ne_true, if_neg Bool.false_ne_true]
      exact ih _ hrest

theorem feolSpec_true_none (img : Img) (li : ℤ) (n : ℕ) (T : ℝ) (dx : Bool) :
    ∀ l, (∀ p ∈ l, ¬ feolConfirm img li n T dx p) →
      feolSpec img li n T dx l true = none := by
  intro l
  induction l with
  | nil => intro _; rfl
  | cons p rest ih =>
    intro h
    rw [feolSpec, if_pos rfl, if_neg (h p (List.mem_cons_self _ _))]
    exact ih (fun q hq => h q (List.mem_cons_of_mem _ hq))

theorem feolSpec_true_found (img : Img) (li : ℤ) (n : ℕ) (T : ℝ) (dx : Bool) :
    ∀ l, l.Pairwise (· > ·) → ∀ p0, p0 ∈ l → feolConfirm img li n T dx p0 →
      (∀ p ∈ l, feolConfirm img li n T dx p → p ≤ p0) →
      feolSpec img li n T dx l true = some p0 := by
  intro l
  induction l with
  | nil =>
    intro _ p0 hmem
    exact absurd hmem (List.not_mem_nil p0)
  | cons q rest ih =>
    intro hpw p0 hmem hconf hmax
    rw [feolSpec, if_pos rfl]
    by_cases hq : feolConfirm img li n T dx q
    · rw [if_pos hq]
      rcases List.mem_cons.mp hmem with rfl | hrest
      · rfl
      · exfalso
        have hlt : q > p0 := (List.pairwise_cons.mp hpw).1 p0 hrest
        have hle := hmax q (List.mem_cons_self _ _) hq
        omega
    · rw [if_neg hq]
      have hp0rest : p0 ∈ rest := by
        rcases List.mem_cons.mp hmem with rfl | hrest
        · exact absurd hconf hq
        · exact hrest
      exact ih (List.pairwise_cons.mp hpw).2 p0 hp0rest hconf
        (fun p hp hc => hmax p (List.mem_cons_of_mem _ hp) hc)

theorem feolSpec_false_none (img : Img) (li : ℤ) (n : ℕ) (T : ℝ) (dx : Bool) :
    ∀ l, l.Pairwise (· > ·) →
      (∀ p ∈ l, feolConfirm img li n T dx p →
        ¬ ∃ q ∈ l, p < q ∧ feolStart img li n T dx q) →
      feolSpec img li n T dx l false = none := by
  intro l
  induction l with
  | nil => intro _ _; rfl
  | cons a rest ih =>
    intro hpw h
    have htail := (List.pairwise_cons.mp hpw).2
    have hagt := (List.pairwise_cons.mp hpw).1
    rw [feolSpec, if_neg Bool.false_ne_true]
    by_cases ha : feolStart img li n T dx a
    · rw [if_pos ha]
      apply feolSpec_true_none
      intro p hp hc
      exact h p (List.mem_cons_of_mem _ hp) hc
        ⟨a, List.mem_cons_self _ _, hagt p hp, ha⟩
    · rw [if_neg ha]
      apply ih htail
      intro p hp hc hex
      obtain ⟨q, hq, hlt, hst⟩ := hex
      exact h p (List.mem_cons_of_mem _ hp) hc
        ⟨q, List.mem_cons_of_mem _ hq, hlt, hst⟩

theorem feolSpec_false_found (img : Img) (li : ℤ) (n : ℕ) (T : ℝ) (dx : Bool) :
    ∀ l, l.Pairwise (· > ·) → ∀ p0, p0 ∈ l → feolConfirm img li n T dx p0 →
      (∃ q ∈ l, p0 < q ∧ feolStart img li n T dx q) →
      (∀ p ∈ l, feolConfirm img li n T dx p →
        (∃ q ∈ l, p < q ∧ feolStart img li n T dx q) → p ≤ p0) →
      feolSpec img li n T dx l false = some p0 := by
  intro l
  induction l with
  | nil =>
    intro _ p0 hmem
    exact absurd hmem (List.not_mem_nil p0)
  | cons a rest ih =>
    intro hpw p0 hmem hconf hex hmax
    obtain ⟨q, hqmem, hlt, hst⟩ := hex
    have htail := (List.pairwise_cons.mp hpw).2
    have hagt := (List.pairwise_cons.mp hpw).1
    have hp0rest : p0 ∈ rest := by
      rcases List.mem_cons.mp hmem with rfl | hrest
      · exfalso
        rcases List.mem_cons.mp hqmem with rfl | hqrest
        · omega
        · have := hagt q hqrest
          omega
      · exact hrest
    rw [feolSpec, if_neg Bool.false_ne_true]
    by_cases ha : feolStart img li n T dx a
    · rw [if_pos ha]
      apply feolSpec_true_found img li n T dx rest htail p0 hp0rest hconf
      intro p hp hc
      exact hmax p (List.mem_cons_of_mem _ hp) hc
        ⟨a, List.mem_cons_self _ _, hagt p hp, ha⟩
    · rw [if_neg ha]
      apply ih htail p0 hp0rest hconf
      · have hqrest : q ∈ rest := by
          rcases List.mem_cons.mp hqmem with rfl | hqrest
          · exact absurd hst ha
          · exact hqrest
        exact ⟨q, hqrest, hlt, hst⟩
      · intro p hp hc hex2
        obtain ⟨q2, hq2, hlt2, hst2⟩ := hex2
        exact hmax p (List.mem_cons_of_mem _ hp) hc
          ⟨q2, List.mem_cons_of_mem _ hq2, hlt2, hst2⟩

/-- Every point of the walk of a valid line is in range. -/
theorem feolWalk_inRange (img : Img) (minimum : ℕ) (li : ℤ) (dx : Bool)
    (hli0 : 0 ≤ li) (hli : li < ((if dx then img.height else img.width) : ℤ)) :
    ∀ p ∈ feolWalk img minimum dx, inRange img (pointOf dx li p) := by
  intro p hp
  rw [feolWalk, mem_downRange] at hp
  have hm : (0 : ℤ) ≤ (minimum : ℤ) := Int.natCast_nonneg _
  cases dx with
  | true =>
    have h1 : (minimum : ℤ) ≤ p := hp.1
    have h2 : p ≤ (img.width : ℤ) - 1 := hp.2
    have h3 : li < (img.height : ℤ) := hli
    refine ⟨?_, ?_, ?_, ?_⟩
    · show (0 : ℤ) ≤ p
      omega
    · show p < (img.width : ℤ)
      omega
    · show (0 : ℤ) ≤ li
      omega
    · show li < (img.height : ℤ)
      omega
  | false =>
    have h1 : (minimum : ℤ) ≤ p := hp.1
    have h2 : p ≤ (img.height : ℤ) - 1 := hp.2
    have h3 : li < (img.width : ℤ) := hli
    refine ⟨?_, ?_, ?_, ?_⟩
    · show (0 : ℤ) ≤ li
      omega
    · show li < (img.width : ℤ)
      omega
    · show (0 : ℤ) ≤ p
      omega
    · show p < (img.height : ℤ)
      omega

/-- `find_edge_of_one_line` on a valid line never aborts and computes the
two-phase walk `feolSpec`. -/
theorem feol_eq_spec (img : Img) (minimum : ℕ) (li : ℤ) (n : ℕ) (T : ℝ) (dx : Bool)
    (hli0 : 0 ≤ li) (hli : li < ((if dx then img.height else img.width) : ℤ)) :
    find_edge_of_one_line img minimum li n T dx =
      some (feolSpec img li n T dx (feolWalk img minimum dx) false) := by
  rw [find_edge_of_one_line]
  exact feolLoop_eq_spec img li n T dx _ false
    (feolWalk_inRange img minimum li dx hli0 hli)

/-- C4: on a valid line, `find_edge_of_one_line` walks from the far end down
to `minimum` and returns the first position (in walk order, i.e. the largest)
at which the confirmation `post - pre ≥ T` holds strictly after some earlier
(larger) walked position at which `pre - post ≥ T` held; when no such
position exists it returns no edge (`None`) for the line. -/
theorem c4_feol_first_confirm_after_start (img : Img) (minimum : ℕ) (li : ℤ) (n : ℕ)
    (T : ℝ) (dx : Bool)
    (hli0 : 0 ≤ li) (hli : li < ((if dx then img.height else img.width) : ℤ)) :
    ((¬ ∃ p ∈ feolWalk img minimum dx, feolConfirm img li n T dx p ∧
        ∃ q ∈ feolWalk img minimum dx, p < q ∧ feolStart img li n T dx q) →
      find_edge_of_one_line img minimum li n T dx = some none) ∧
    (∀ p0 ∈ feolWalk img minimum dx, feolConfirm img li n T dx p0 →
      (∃ q ∈ feolWalk img minimum dx, p0 < q ∧ feolStart img li n T dx q) →
      (∀ p ∈ feolWalk img minimum dx, feolConfirm img li n T dx p →
        (∃ q ∈ feolWalk img minimum dx, p < q ∧ feolStart img li n T dx q) → p ≤ p0) →
      find_edge_of_one_line img minimum li n T dx = some (some p0)) := by
  have hsorted : (feolWalk img minimum dx).Pairwise (· > ·) := downRange_sorted _ _
  constructor
  · intro h
    rw [feol_eq_spec img minimum li n T dx hli0 hli,
      feolSpec_false_none img li n T dx _ hsorted
        (fun p hp hc hex => h ⟨p, hp, hc, hex⟩)]
  · intro p0 hp0 hconf hex hmax
    rw [feol_eq_spec img minimum li n T dx hli0 hli,
      feolSpec_false_found img li n T dx _ hsorted p0 hp0 hconf hex hmax]

theorem rgb_distance_self (p : Pixel) : rgb_distance p p = 0 := by
  rw [rgb_distance]
  simp

theorem wimg_inRange_of (x y : ℤ) (hx0 : 0 ≤ x) (hx : x < 3) (hy0 : 0 ≤ y) (hy : y < 3) :
    inRange wimg (x, y) :=
  ⟨hx0, hx, hy0, hy⟩

/-- On the constant white grid every neighbour distance is 0. -/
theorem wimg_nbrDist (point : ℤ × ℤ) (n : ℕ) (dx da : Bool) (h : inRange wimg point) :
    nbrDistD wimg point n dx da = 0 := by
  rw [nbrDistD_eq wimg point n dx da h]
  by_cases hv : validDeltas wimg point n dx da = []
  · rw [if_pos hv]
  · rw [if_neg hv]
    have hsum : ((validDeltas wimg point n dx da).map
        (fun delta => rgb_distance (pixAt wimg point)
          (pixAt wimg (neighborPoint point dx delta)))).sum = 0 := by
      apply List.sum_eq_zero
      intro x hx
      rw [List.mem_map] at hx
      obtain ⟨d, _, rfl⟩ := hx
      have h1 : pixAt wimg point = whitePixel := rfl
      have h2 : pixAt wimg (neighborPoint point dx d) = whitePixel := rfl
      rw [h1, h2, rgb_distance_self]
    rw [hsum, zero_div]

/-- Witness for C4 at the white grid, line 1, one neighbour, threshold 100:
no start transition ever fires, so the per-line result is `no edge`. -/
theorem c4_feol_first_confirm_after_start_witness :
    find_edge_of_one_line wimg 0 1 1 100 true = some none := by
  apply (c4_feol_first_confirm_after_start wimg 0 1 1 100 true (by norm_num)
    (by norm_num [wimg])).1
  rintro ⟨p, hp, hc, q, hq, hlt, hst⟩
  rw [feolWalk, mem_downRange] at hq
  have hq2 : q ≤ (wimg.width : ℤ) - 1 := hq.2
  have hw : wimg.width = 3 := rfl
  have hin : inRange wimg (pointOf true 1 q) :=
    wimg_inRange_of q 1 (le_trans (by norm_num) hq.1) (by omega) (by norm_num) (by norm_num)
  have hst2 : (100 : ℝ) ≤ nbrDistD wimg (pointOf true 1 q) 1 true false
      - nbrDistD wimg (pointOf true 1 q) 1 true true := hst
  rw [wimg_nbrDist (pointOf true 1 q) 1 true false hin,
    wimg_nbrDist (pointOf true 1 q) 1 true true hin] at hst2
  norm_num at hst2

theorem wimg_feol_none (li : ℤ) (h0 : 0 ≤ li) (h3 : li < 3) :
    find_edge_of_one_line wimg 0 li 2 75 true = some none := by
  have hli : li < ((if true then wimg.height else wimg.width : ℕ) : ℤ) := h3
  rw [feol_eq_spec wimg 0 li 2 75 true h0 hli]
  congr 1
  apply feolSpec_false_none wimg li 2 75 true _ (by
    rw [feolWalk]
    exact downRange_sorted _ _)
  intro p hp hc
  exfalso
  rw [feolWalk, mem_downRange] at hp
  have hp2 : p ≤ (wimg.width : ℤ) - 1 := hp.2
  have hw : wimg.width = 3 := rfl
  have hin : inRange wimg (pointOf true li p) :=
    wimg_inRange_of p li (le_trans (by norm_num) hp.1) (by omega) h0 h3
  have hc2 : (75 : ℝ) ≤ nbrDistD wimg (pointOf true li p) 2 true true
      - nbrDistD wimg (pointOf true li p) 2 true false := hc
  rw [wimg_nbrDist (pointOf true li p) 2 true true hin,
    wimg_nbrDist (pointOf true li p) 2 true false hin] at hc2
  norm_num at hc2

/-! `find_edge` with no detections. -/

theorem feGo_all_none (img : Img) (minimum n : ℕ) (T : ℝ) (dx : Bool) :
    ∀ (l : List ℕ) (edge : ℤ),
      (∀ li ∈ l, find_edge_of_one_line img minimum (li : ℤ) n T dx = some none) →
      feGo img minimum n T dx l edge [] = none := by
  intro l
  induction l with
  | nil => intro edge _; rfl
  | cons a rest ih =>
    intro edge h
    rw [feGo, h a (List.mem_cons_self _ _)]
    exact ih edge (fun li hli => h li (List.mem_cons_of_mem _ hli))

/-- C5 (amended): when no probed line yields a per-line detection,
`find_edge` does not return a pair at all: its internal maximum is still -1,
but the `most_common(1)[0]` lookup on the empty frequency counter raises
(modelled as `none`) before anything is returned. -/
theorem c5_find_edge_no_detection_raises (img : Img) (minimum margin n : ℕ) (T : ℝ)
    (dx : Bool)
    (h : ∀ li ∈ pyRange margin ((if dx then img.height else img.width) - margin) (n / 2),
      find_edge_of_one_line img minimum (li : ℤ) n T dx = some none) :
    find_edge img minimum margin n T dx = none := by
  rw [find_edge]
  exact feGo_all_none img minimum n T dx _ (-1) h

/-- Witness for C5 at the white 3x3 grid: the three probed lines 0, 1, 2 all
yield no detection and `find_edge` aborts with no value. -/
theorem c5_find_edge_no_detection_raises_witness :
    find_edge wimg 0 0 2 75 true = none := by
  apply c5_find_edge_no_detection_raises
  intro li hli
  have hpy : pyRange 0 ((if true then wimg.height else wimg.width) - 0) (2 / 2)
      = [0, 1, 2] := rfl
  rw [hpy] at hli
  have hlt : li < 3 := by
    have h3 : li = 0 ∨ li = 1 ∨ li = 2 := by simpa using hli
    omega
  exact wimg_feol_none (li : ℤ) (Int.natCast_nonneg li) (by exact_mod_cast hlt)

/-- Counterexample to C5 as stated: on a grid whose three probed lines all
yield no detection, `find_edge` does not report a result whose maximum
component is -1 — it produces no result at all. -/
theorem c5_counterexample_no_pair_returned :
    ¬ ∃ m : ℤ, find_edge wimg 0 0 2 75 true = some (-1, m) := by
  have hnone : find_edge wimg 0 0 2 75 true = none := by
    rw [find_edge]
    apply feGo_all_none
    intro li hli
    have hpy : pyRange 0 ((if true then wimg.height else wimg.width) - 0) (2 / 2)
        = [0, 1, 2] := rfl
    rw [hpy] at hli
    have hlt : li < 3 := by
      have h3 : li = 0 ∨ li = 1 ∨ li = 2 := by simpa using hli
      omega
    exact wimg_feol_none (li : ℤ) (Int.natCast_nonneg li) (by exact_mod_cast hlt)
  rintro ⟨m, hm⟩
  rw [hnone] at hm
  exact Option.noConfusion hm

/-! The frequency counter: association list facts. -/

theorem mem_addKey (ks : List ℤ) (e a : ℤ) : a ∈ addKey ks e ↔ a ∈ ks ∨ a = e := by
  rw [addKey]
  by_cases he : e ∈ ks
  · rw [if_pos he]
    constructor
    · intro h; exact Or.inl h
    · rintro (h | rfl)
      · exact h
      · exact he
  · rw [if_neg he]
    simp

theorem addKey_nodup (ks : List ℤ) (e : ℤ) (h : ks.Nodup) : (addKey ks e).Nodup := by
  rw [addKey]
  by_cases he : e ∈ ks
  · rw [if_pos he]
    exact h
  · rw [if_neg he]
    rw [List.nodup_append]
    exact ⟨h, List.nodup_singleton e, by
      intro a ha hae
      rw [List.mem_singleton] at hae
      exact he (hae ▸ ha)⟩

theorem bump_keys (freq : List (ℤ × ℕ)) (e : ℤ) :
    (bump freq e).map Prod.fst = addKey (freq.map Prod.fst) e := by
  induction freq with
  | nil =>
    simp [bump, addKey]
  | cons kc rest ih =>
    obtain ⟨k, c⟩ := kc
    rw [bump]
    by_cases hk : k = e
    · rw [if_pos hk, addKey, List.map_cons, List.map_cons,
        if_pos (List.mem_cons.mpr (Or.inl hk.symm))]
    · rw [if_neg hk, List.map_cons, List.map_cons, ih, addKey, addKey]
      by_cases he : e ∈ rest.map Prod.fst
      · rw [if_pos he, if_pos (List.mem_cons.mpr (Or.inr he))]
      · rw [if_neg he, if_neg (by
          rw [List.mem_cons]
          rintro (h | h)
          · exact hk h.symm
          · exact he h)]
        rfl

theorem keyCount_bump (freq : List (ℤ × ℕ)) (e k : ℤ) :
    keyCount (bump freq e) k = keyCount freq k + (if k = e then 1 else 0) := by
  induction freq with
  | nil =>
    rw [bump, keyCount, keyCount]
    by_cases hk : k = e
    · rw [if_pos hk.symm, if_pos hk]
    · rw [if_neg (fun h => hk h.symm), if_neg hk, keyCount]
  | cons kc rest ih =>
    obtain ⟨k2, c⟩ := kc
    rw [bump]
    by_cases hk2 : k2 = e
    · rw [if_pos hk2, keyCount, keyCount]
      by_cases hkk : k2 = k
      · rw [if_pos hkk, if_pos hkk, if_pos (show k = e by omega)]
      · rw [if_neg hkk, if_neg hkk, if_neg (show ¬ k = e by omega)]
        omega
    · rw [if_neg hk2, keyCount, keyCount]
      by_cases hkk : k2 = k
      · rw [if_pos hkk, if_pos hkk, if_neg (show ¬ k = e by omega)]
        omega
      · rw [if_neg hkk, if_neg hkk, ih]

theorem keys_foldl_bump (ds : List ℤ) :
    ∀ (f : List (ℤ × ℕ)), ((ds.foldl bump f).map Prod.fst) = ds.foldl addKey (f.map Prod.fst) := by
  induction ds with
  | nil => intro f; rfl
  | cons e rest ih =>
    intro f
    rw [List.foldl_cons, List.foldl_cons, ih, bump_keys]

theorem mem_foldl_addKey (ds : List ℤ) :
    ∀ (ks : List ℤ) (a : ℤ), a ∈ ds.foldl addKey ks ↔ a ∈ ks ∨ a ∈ ds := by
  induction ds with
  | nil =>
    intro ks a
    simp
  | cons e rest ih =>
    intro ks a
    rw [List.foldl_cons, ih, mem_addKey, List.mem_cons]
    tauto

theorem nodup_foldl_addKey (ds : List ℤ) :
    ∀ (ks : List ℤ), ks.Nodup → (ds.foldl addKey ks).Nodup := by
  induction ds with
  | nil => intro ks h; exact h
  | cons e rest ih =>
    intro ks h
    rw [List.foldl_cons]
    exact ih _ (addKey_nodup ks e h)

theorem keyCount_foldl_bump (ds : List ℤ) :
    ∀ (f : List (ℤ × ℕ)) (k : ℤ),
      keyCount (ds.foldl bump f) k = keyCount f k + ds.count k := by
  induction ds with
  | nil =>
    intro f k
    rw [List.foldl_nil, List.count_nil]
    omega
  | cons e rest ih =>
    intro f k
    rw [List.foldl_cons, ih, keyCount_bump, List.count_cons]
    by_cases hk : k = e
    · rw [if_pos hk, if_pos (beq_iff_eq.mpr hk.symm)]
      omega
    · rw [if_neg hk, if_neg (by
        intro h
        exact hk (beq_iff_eq.mp h).symm)]
      omega

theorem mem_iff_keyCount (f : List (ℤ × ℕ)) (a : ℤ) (c : ℕ) :
    (f.map Prod.fst).Nodup → ((a, c) ∈ f ↔ a ∈ f.map Prod.fst ∧ c = keyCount f a) := by
  induction f with
  | nil =>
    intro _
    simp [keyCount]
  | cons kc rest ih =>
    intro h
    obtain ⟨k, c2⟩ := kc
    rw [List.map_cons] at h
    have hk_not : k ∉ rest.map Prod.fst := (List.nodup_cons.mp h).1
    have hrest := ih (List.nodup_cons.mp h).2
    rw [List.map_cons, List.mem_cons, List.mem_cons, keyCount]
    constructor
    · rintro (heq | hp)
      · rw [Prod.mk.injEq] at heq
        obtain ⟨ha, hc⟩ := heq
        refine ⟨Or.inl ha, ?_⟩
        rw [if_pos ha.symm]
        exact hc
      · obtain ⟨h1, h2⟩ := hrest.mp hp
        refine ⟨Or.inr h1, ?_⟩
        rw [if_neg (fun hke => hk_not (by rw [hke]; exact h1))]
        exact h2
    · rintro ⟨h1 | h1, h2⟩
      · have ha : a = k := h1
        rw [if_pos ha.symm] at h2
        exact Or.inl (by rw [ha, h2])
      · rw [if_neg (fun hke => hk_not (by rw [hke]; exact h1))] at h2
        exact Or.inr (hrest.mpr ⟨h1, h2⟩)

/-- Model-level fact about the insertion-ordered counter: its keys
accumulate in first-occurrence order, so earlier keys have earlier first
occurrences in the detection list. -/
theorem foldl_addKey_order (ds : List ℤ) :
    (ds.foldl addKey []).Pairwise (fun a b => ds.indexOf a < ds.indexOf b) := by
  induction ds using List.reverseRecOn with
  | nil => exact List.Pairwise.nil
  | append_singleton rest e ih =>
    rw [List.foldl_append, List.foldl_cons, List.foldl_nil, addKey]
    by_cases he : e ∈ rest.foldl addKey []
    · rw [if_pos he]
      apply List.Pairwise.imp_of_mem ?_ ih
      intro a b ha hb hab
      have ha2 : a ∈ rest := ((mem_foldl_addKey rest [] a).mp ha).resolve_left
        (List.not_mem_nil a)
      have hb2 : b ∈ rest := ((mem_foldl_addKey rest [] b).mp hb).resolve_left
        (List.not_mem_nil b)
      rw [List.indexOf_append_of_mem ha2, List.indexOf_append_of_mem hb2]
      exact hab
    · rw [if_neg he]
      rw [List.pairwise_append]
      refine ⟨?_, List.pairwise_singleton _ _, ?_⟩
      · apply List.Pairwise.imp_of_mem ?_ ih
        intro a b ha hb hab
        have ha2 : a ∈ rest := ((mem_foldl_addKey rest [] a).mp ha).resolve_left
          (List.not_mem_nil a)
        have hb2 : b ∈ rest := ((mem_foldl_addKey rest [] b).mp hb).resolve_left
          (List.not_mem_nil b)
        rw [List.indexOf_append_of_mem ha2, List.indexOf_append_of_mem hb2]
        exact hab
      · intro a ha b hb
        rw [List.mem_singleton] at hb
        subst hb
        have ha2 : a ∈ rest := ((mem_foldl_addKey rest [] a).mp ha).resolve_left
          (List.not_mem_nil a)
        have he2 : b ∉ rest := fun hmem =>
          he ((mem_foldl_addKey rest [] b).mpr (Or.inr hmem))
        rw [List.indexOf_append_of_mem ha2, List.indexOf_append_of_not_mem he2]
        have hlt : List.indexOf a rest < rest.length := List.indexOf_lt_length.mpr ha2
        have hz : List.indexOf b [b] = 0 := List.indexOf_cons_self b []
        omega

/-- `pickFirstMax` returns the first entry of maximal count: the entries
before it in iteration order have strictly smaller counts and the ones after
it have no larger count. -/
theorem pickFirstMax_spec :
    ∀ (l : List (ℤ × ℕ)) (kc : ℤ × ℕ),
      ∃ pre post, kc :: l = pre ++ pickFirstMax l kc :: post ∧
        (∀ p ∈ pre, p.2 < (pickFirstMax l kc).2) ∧
        (∀ p ∈ post, p.2 ≤ (pickFirstMax l kc).2) := by
  intro l
  induction l with
  | nil =>
    intro kc
    exact ⟨[], [], rfl, by simp, by simp⟩
  | cons q rest ih =>
    intro kc
    rw [pickFirstMax]
    by_cases hc : kc.2 < q.2
    · rw [if_pos hc]
      obtain ⟨pre, post, heq, hpre, hpost⟩ := ih q
      have hq2 : q.2 ≤ (pickFirstMax rest q).2 := by
        cases pre with
        | nil =>
          rw [List.nil_append] at heq
          rw [← (List.cons.inj heq).1]
        | cons a pre2 =>
          rw [List.cons_append] at heq
          have ha : a = q := (List.cons.inj heq).1.symm
          exact le_of_lt (hpre q (by rw [← ha]; exact List.mem_cons_self _ _))
      refine ⟨kc :: pre, post, ?_, ?_, hpost⟩
      · rw [List.cons_append, ← heq]
      · intro p hp
        rcases List.mem_cons.mp hp with rfl | hp2
        · omega
        · exact hpre p hp2
    · rw [if_neg hc]
      obtain ⟨pre, post, heq, hpre, hpost⟩ := ih kc
      cases pre with
      | nil =>
        rw [List.nil_append] at heq
        have hr : pickFirstMax rest kc = kc := (List.cons.inj heq).1.symm
        have hpost2 : rest = post := (List.cons.inj heq).2
        refine ⟨[], q :: rest, ?_, by simp, ?_⟩
        · rw [List.nil_append, hr]
        · intro p hp
          rcases List.mem_cons.mp hp with rfl | hp2
          · rw [hr]
            omega
          · exact hpost p (by rw [← hpost2]; exact hp2)
      | cons a pre2 =>
        rw [List.cons_append] at heq
        have ha : a = kc := (List.cons.inj heq).1.symm
        have htail : rest = pre2 ++ pickFirstMax rest kc :: post := (List.cons.inj heq).2
        refine ⟨kc :: q :: pre2, post, ?_, ?_, hpost⟩
        · rw [List.cons_append, List.cons_append, ← htail]
        · intro p hp
          have hkclt : kc.2 < (pickFirstMax rest kc).2 :=
            hpre kc (by rw [← ha]; exact List.mem_cons_self _ _)
          rcases List.mem_cons.mp hp with rfl | hp2
          · exact hkclt
          · rcases List.mem_cons.mp hp2 with rfl | hp3
            · omega
            · exact hpre p (List.mem_cons_of_mem _ hp3)

theorem mcGo_eq_pick : ∀ (l : List (ℤ × ℕ)) (k : ℤ) (c : ℕ),
    mcGo l k c = (pickFirstMax l (k, c)).1 := by
  intro l
  induction l with
  | nil => intro k c; rfl
  | cons q rest ih =>
    intro k c
    obtain ⟨k2, c2⟩ := q
    rw [mcGo, pickFirstMax]
    by_cases hc : c < c2
    · rw [if_pos hc, if_pos hc, ih]
    · rw [if_neg hc, if_neg hc, ih]

theorem counter_ne_nil (ds : List ℤ) (hne : ds ≠ []) : ds.foldl bump [] ≠ [] := by
  intro h
  obtain ⟨e, he⟩ := List.exists_mem_of_ne_nil ds hne
  have hmem : e ∈ (ds.foldl bump []).map Prod.fst := by
    rw [keys_foldl_bump]
    exact (mem_foldl_addKey ds _ e).mpr (Or.inr he)
  rw [h] at hmem
  simp at hmem

/-- Model-level fact: on the insertion-ordered counter of a nonempty
detection list, `most_common1` returns a detection of maximal count, with
ties falling to the first occurrence in the modelled iteration order.  (In
CPython 2 the iteration order is hash-slot order instead, so only the
order-independent parts — membership and maximality of the count — reflect
the program.) -/
theorem mode_spec (ds : List ℤ) (hne : ds ≠ []) :
    ∃ md, most_common1 (ds.foldl bump []) = some md ∧ md ∈ ds ∧
      (∀ k ∈ ds, ds.count k ≤ ds.count md) ∧
      (∀ k ∈ ds, ds.count k = ds.count md → ds.indexOf md ≤ ds.indexOf k) := by
  have hnodup : ((ds.foldl bump []).map Prod.fst).Nodup := by
    rw [keys_foldl_bump]
    exact nodup_foldl_addKey ds _ List.nodup_nil
  have hkeys_mem : ∀ a : ℤ, a ∈ (ds.foldl bump []).map Prod.fst ↔ a ∈ ds := by
    intro a
    rw [keys_foldl_bump, mem_foldl_addKey]
    simp
  have hcount : ∀ k : ℤ, keyCount (ds.foldl bump []) k = ds.count k := by
    intro k
    rw [keyCount_foldl_bump]
    rw [keyCount]
    omega
  have horder : ((ds.foldl bump []).map Prod.fst).Pairwise
      (fun a b => ds.indexOf a < ds.indexOf b) := by
    rw [keys_foldl_bump]
    exact foldl_addKey_order ds
  cases hfreq : ds.foldl bump [] with
  | nil => exact absurd hfreq (counter_ne_nil ds hne)
  | cons kc rest =>
    rw [hfreq] at hnodup hkeys_mem hcount horder
    obtain ⟨k0, c0⟩ := kc
    obtain ⟨pre, post, heq, hpre, hpost⟩ := pickFirstMax_spec rest (k0, c0)
    have hr_mem : pickFirstMax rest (k0, c0) ∈ (k0, c0) :: rest := by
      rw [heq]
      exact List.mem_append.mpr (Or.inr (List.mem_cons_self _ _))
    have hr_facts := (mem_iff_keyCount ((k0, c0) :: rest)
      (pickFirstMax rest (k0, c0)).1 (pickFirstMax rest (k0, c0)).2 hnodup).mp
      (by rw [Prod.mk.eta]; exact hr_mem)
    have hrc : (pickFirstMax rest (k0, c0)).2 = ds.count (pickFirstMax rest (k0, c0)).1 := by
      rw [hr_facts.2, hcount]
    have hmd_mem : (pickFirstMax rest (k0, c0)).1 ∈ ds := (hkeys_mem _).mp hr_facts.1
    have hentry : ∀ k ∈ ds, (k, ds.count k) ∈ (k0, c0) :: rest := by
      intro k hk
      apply (mem_iff_keyCount ((k0, c0) :: rest) k (ds.count k) hnodup).mpr
      exact ⟨(hkeys_mem k).mpr hk, (hcount k).symm⟩
    refine ⟨(pickFirstMax rest (k0, c0)).1, ?_, hmd_mem, ?_, ?_⟩
    · rw [most_common1, mcGo_eq_pick]
    · intro k hk
      have hkentry := hentry k hk
      rw [heq] at hkentry
      rcases List.mem_append.mp hkentry with hpre2 | hpost2
      · have h2 : ds.count k < (pickFirstMax rest (k0, c0)).2 := hpre (k, ds.count k) hpre2
        omega
      · rcases List.mem_cons.mp hpost2 with heq2 | hpost3
        · have h2 : ds.count k = (pickFirstMax rest (k0, c0)).2 := congrArg Prod.snd heq2
          omega
        · have h2 : ds.count k ≤ (pickFirstMax rest (k0, c0)).2 :=
            hpost (k, ds.count k) hpost3
          omega
    · intro k hk hck
      have hkentry := hentry k hk
      rw [heq] at hkentry
      rcases List.mem_append.mp hkentry with hpre2 | hpost2
      · have h2 : ds.count k < (pickFirstMax rest (k0, c0)).2 := hpre (k, ds.count k) hpre2
        omega
      · rcases List.mem_cons.mp hpost2 with heq2 | hpost3
        · have hkr : k = (pickFirstMax rest (k0, c0)).1 := congrArg Prod.fst heq2
          rw [hkr]
        · have hkeyeq : ((k0, c0) :: rest).map Prod.fst =
              pre.map Prod.fst ++ (pickFirstMax rest (k0, c0)).1 :: post.map Prod.fst := by
            rw [heq, List.map_append, List.map_cons]
          rw [hkeyeq] at horder
          have hpw2 := (List.pairwise_append.mp horder).2.1
          have hk_in : k ∈ post.map Prod.fst :=
            List.mem_map.mpr ⟨(k, ds.count k), hpost3, rfl⟩
          have h2 := (List.pairwise_cons.mp hpw2).1 k hk_in
          omega

/-! The running maximum of `find_edge`. -/

theorem foldl_maxStep_mem (l : List ℤ) :
    ∀ a, l.foldl maxStep a = a ∨ l.foldl maxStep a ∈ l := by
  induction l with
  | nil => intro a; left; rfl
  | cons x rest ih =>
    intro a
    rw [List.foldl_cons]
    rcases ih (maxStep a x) with h | h
    · rw [h, maxStep]
      by_cases hc : a < x
      · right
        rw [if_pos hc]
        exact List.mem_cons_self _ _
      · left
        rw [if_neg hc]
    · right
      exact List.mem_cons_of_mem _ h

theorem le_foldl_maxStep (l : List ℤ) :
    ∀ a, a ≤ l.foldl maxStep a ∧ ∀ k ∈ l, k ≤ l.foldl maxStep a := by
  induction l with
  | nil =>
    intro a
    exact ⟨le_refl a, by simp⟩
  | cons x rest ih =>
    intro a
    rw [List.foldl_cons]
    obtain ⟨h1, h2⟩ := ih (maxStep a x)
    have hax : a ≤ maxStep a x := by
      rw [maxStep]
      by_cases hc : a < x
      · rw [if_pos hc]; omega
      · rw [if_neg hc]
    have hxx : x ≤ maxStep a x := by
      rw [maxStep]
      by_cases hc : a < x
      · rw [if_pos hc]
      · rw [if_neg hc]; omega
    refine ⟨le_trans hax h1, ?_⟩
    intro k hk
    rcases List.mem_cons.mp hk with rfl | hk2
    · exact le_trans hxx h1
    · exact h2 k hk2

/-! Assembling `find_edge`. -/

theorem feolSpec_some_mem (img : Img) (li : ℤ) (n : ℕ) (T : ℝ) (dx : Bool) :
    ∀ (l : List ℤ) (b : Bool) (p : ℤ), feolSpec img li n T dx l b = some p → p ∈ l := by
  intro l
  induction l with
  | nil =>
    intro b p h
    exact Option.noConfusion h
  | cons q rest ih =>
    intro b p h
    rw [feolSpec] at h
    cases b with
    | true =>
      rw [if_pos rfl] at h
      by_cases hc : feolConfirm img li n T dx q
      · rw [if_pos hc] at h
        rw [List.mem_cons]
        exact Or.inl (Option.some.inj h).symm
      · rw [if_neg hc] at h
        exact List.mem_cons_of_mem _ (ih true p h)
    | false =>
      rw [if_neg Bool.false_ne_true] at h
      exact List.mem_cons_of_mem _ (ih _ p h)

theorem pyRange_mem (a b s : ℕ) (hs : 0 < s) :
    ∀ li ∈ pyRange a b s, a ≤ li ∧ li < b := by
  intro li hli
  rw [pyRange, List.mem_range'] at hli
  obtain ⟨i, hi, rfl⟩ := hli
  refine ⟨by omega, ?_⟩
  have h1 : (i + 1) * s ≤ ((b - a + s - 1) / s) * s := Nat.mul_le_mul_right s hi
  have h2 : ((b - a + s - 1) / s) * s ≤ b - a + s - 1 := Nat.div_mul_le_self _ s
  have h3 : (i + 1) * s = i * s + s := by ring
  have h4 : s * i = i * s := Nat.mul_comm s i
  omega

theorem feGo_eq (img : Img) (minimum n : ℕ) (T : ℝ) (dx : Bool) :
    ∀ (l : List ℕ) (edge : ℤ) (freq : List (ℤ × ℕ)),
      (∀ li ∈ l, find_edge_of_one_line img minimum (li : ℤ) n T dx ≠ none) →
      feGo img minimum n T dx l edge freq =
        (match most_common1
            ((l.filterMap (fun (li : ℕ) =>
              (find_edge_of_one_line img minimum (li : ℤ) n T dx).join)).foldl bump freq) with
        | none => none
        | some m =>
          some ((if 0 ≤ (l.filterMap (fun (li : ℕ) =>
                (find_edge_of_one_line img minimum (li : ℤ) n T dx).join)).foldl maxStep edge
            then (l.filterMap (fun (li : ℕ) =>
                (find_edge_of_one_line img minimum (li : ℤ) n T dx).join)).foldl maxStep edge
            else -1), m)) := by
  intro l
  induction l with
  | nil => intro edge freq _; rfl
  | cons a rest ih =>
    intro edge freq h
    have htail : ∀ li ∈ rest, find_edge_of_one_line img minimum (li : ℤ) n T dx ≠ none :=
      fun li hli => h li (List.mem_cons_of_mem _ hli)
    cases hfa : find_edge_of_one_line img minimum (a : ℤ) n T dx with
    | none => exact absurd hfa (h a (List.mem_cons_self _ _))
    | some oe =>
      cases oe with
      | none =>
        have hfm : (a :: rest).filterMap (fun (li : ℕ) =>
              (find_edge_of_one_line img minimum (li : ℤ) n T dx).join) =
            rest.filterMap (fun (li : ℕ) =>
              (find_edge_of_one_line img minimum (li : ℤ) n T dx).join) := by
          rw [List.filterMap_cons, hfa]
          rfl
        rw [hfm, feGo, hfa]
        exact ih edge freq htail
      | some e =>
        have hfm : (a :: rest).filterMap (fun (li : ℕ) =>
              (find_edge_of_one_line img minimum (li : ℤ) n T dx).join) =
            e :: rest.filterMap (fun (li : ℕ) =>
              (find_edge_of_one_line img minimum (li : ℤ) n T dx).join) := by
          rw [List.filterMap_cons, hfa]
          rfl
        rw [hfm, List.foldl_cons, List.foldl_cons, feGo, hfa]
        exact ih (maxStep edge e) (bump freq e) htail


end CropScan
